import Mathlib

/-!
Verification of the TreeWatcher tree-listing parser and builders.

This file gives a shallow embedding of the core logic of the repository:

* `parse_line`            — TreeWatcherApp.parse_line (treewatcher.py): per-line
                            indentation scanning and connector stripping;
* `sbBuild`               — the stack-based forest construction performed by
                            TreeWatcherApp.parse_and_build_tree (treewatcher.py),
                            abstracted from the Tk widget: inserting an item pops
                            the stack while the top entry has depth >= the item
                            depth, attaches the item under the new top (or as a
                            top-level root when the stack is empty), and pushes it;
* `buildRecAux`           — RecursiveTreeWatcherApp._build_tree_recursive
                            (treewatcherTree.py), the recursive builder over the
                            peekable iterator, with an explicit fuel argument
                            (each consumed item burns one unit, so fuel =
                            list length is always sufficient; lemmas below prove
                            fuel irrelevance where needed);
* `buildFromLines`        — RecursiveTreeWatcherApp._parse_and_build_tree_thread:
                            header skipping, root handling, per-line parsing and
                            recursive building; `none` models the
                            "No tree structure found." outcome;
* `buildRecAuxR`          — the same recursive builder instrumented with the
                            progress counter and its emitted reports;
* `phase1Reports`, `phase2Reports` — the (done, total) progress report sequences
                            of the parsing and building phases;
* `insertNodeLazy`, `onTreeOpen` — the lazy materializer
                            (RecursiveTreeWatcherApp._insert_node_lazy /
                            on_tree_open) over an abstract view-item tree.

Python strings are modelled as `List Char`; machine integers are `Nat`
(all quantities involved are non-negative).
-/

/-! ## Character classes used by parse_line -/

/-- Continuation glyphs: the characters the source compares against in the
compressed-indentation test (the list `["│", "|"]` at the `i > 0` check). -/
def isContGlyph (c : Char) : Bool := c = '│' || c = '|'

/-- Spacer characters: membership in `["│", "|", " "]` in parse_line's chunk loop. -/
def isSpacerChar (c : Char) : Bool := c = '│' || c = '|' || c = ' '

/-- Connector characters: membership in `["├", "└", "+", "\\"]`. -/
def isConnChar (c : Char) : Bool := c = '├' || c = '└' || c = '+' || c = '\\'

/-! ## parse_line -/

/-- The inner `for i, char in enumerate(chunk)` loop of parse_line.
Returns `(compressed_indent, found_name_char, safe_len)`; the default
`safe_len` when the loop completes is 4, as in the source. -/
def chunkScan : List Char → Nat → Bool × Bool × Nat
  | [], _ => (false, false, 4)
  | c :: cs, i =>
    if isSpacerChar c then
      if i > 0 && isContGlyph c then (true, false, i)
      else chunkScan cs (i + 1)
    else (false, true, i)

/-- The outer `while idx < n` indentation loop of parse_line, with explicit
fuel (the loop advances `idx` by at least one character per iteration, so
`fuel = line.length` is always enough; see `scanIndentAux_fuel_irrel`).
Returns the final `(depth, idx)`. -/
def scanIndentAux : Nat → List Char → Nat → Nat → Nat × Nat
  | 0, _, idx, depth => (depth, idx)
  | fuel + 1, line, idx, depth =>
    let n := line.length
    if idx ≥ n then (depth, idx)
    else if idx + 4 > n then (depth, idx)
    else
      let chunk := (line.drop idx).take 4
      match chunk with
      | [] => (depth, idx)
      | c :: _ =>
        if isConnChar c then (depth, idx)
        else if isSpacerChar c then
          let r := chunkScan chunk 0
          if r.1 then scanIndentAux fuel line (idx + r.2.2) (depth + 1)
          else if r.2.1 then (depth + 1, idx + r.2.2)
          else scanIndentAux fuel line (idx + 4) (depth + 1)
        else (depth, idx)

/-- Python whitespace for str.strip / str.rstrip. -/
def pyStripChar (c : Char) : Bool :=
  c = ' ' || c = '\t' || c = '\n' || c = '\r' || c = '\x0b' || c = '\x0c'

/-- Python str.rstrip(). -/
def pyRstrip (l : List Char) : List Char := (l.reverse.dropWhile pyStripChar).reverse

/-- Python str.strip(). -/
def pyStrip (l : List Char) : List Char := pyRstrip (l.dropWhile pyStripChar)

/-- Python str.startswith for list-of-char strings. -/
def startsWith : List Char → List Char → Bool
  | [], _ => true
  | _ :: _, [] => false
  | p :: ps, c :: cs => p = c && startsWith ps cs

/-- The priority-ordered connector list `prefixes` of parse_line. -/
def connectorMarks : List (List Char) :=
  ["├── ".toList, "└── ".toList, "├──".toList, "└──".toList, "+---".toList,
   "\\---".toList, "└─ ".toList, "├─ ".toList, "└─".toList, "├─".toList]

/-- The `for p in prefixes` loop: strip the first matching connector, if any. -/
def stripFirstMark : List (List Char) → List Char → Option (List Char)
  | [], _ => none
  | p :: ps, nm => if startsWith p nm then some (nm.drop p.length) else stripFirstMark ps nm

/-- The part of parse_line after the indentation loop: spacer detection and
connector stripping, given the scan result `(depth, idx)`. -/
def parseAfterScan (line : List Char) (p : Nat × Nat) : Nat × Option (List Char) :=
  let depth := p.1
  let name := line.drop p.2
  let stripped := pyStrip name
  if stripped = [] then (depth, none)
  else if stripped = ['│'] || stripped = ['|'] then (depth, none)
  else
    match stripFirstMark connectorMarks name with
    | some nm => (depth, some nm)
    | none =>
      if startsWith ['│'] name || startsWith ['|'] name then (depth, none)
      else if startsWith "─ ".toList name then (depth, some (name.drop 2))
      else if startsWith ['─'] name then (depth, some (name.drop 1))
      else (depth, some name)

/-- TreeWatcherApp.parse_line: `(depth, name)`; `none` models the Python `None`
name of a pure spacer line.  (The source returns a constant third component
`False` (is_last_child), omitted here.) -/
def parse_line (line : List Char) : Nat × Option (List Char) :=
  parseAfterScan line (scanIndentAux line.length line 0 0)

/-! ## Tree nodes -/

/-- treewatcherTree.TreeNode: name, depth and ordered children. -/
inductive TreeNode : Type where
  | mk (name : List Char) (depth : Nat) (children : List TreeNode) : TreeNode

def TreeNode.name : TreeNode → List Char
  | .mk nm _ _ => nm

def TreeNode.depth : TreeNode → Nat
  | .mk _ d _ => d

def TreeNode.children : TreeNode → List TreeNode
  | .mk _ _ cs => cs

/-- TreeNode.is_folder: `len(self.children) > 0`. -/
def TreeNode.is_folder (t : TreeNode) : Bool := t.children.length > 0

/-! ## Stack-based builder (treewatcher.py, parse_and_build_tree)

The Tk tree is abstracted away: an open stack entry holds the name, depth and
children inserted under it so far; when an entry is popped its finished node is
attached to the entry below it (or to the list of top-level roots when the
stack empties), preserving exactly the parent choice and sibling order of the
source's `tree.insert` calls. -/

/-- An entry of the source's `stack`: the node reference is represented by the
children accumulated under it so far. -/
structure SBEntry where
  name : List Char
  depth : Nat
  kids : List TreeNode

/-- Continue the `while stack and stack[-1]["depth"] >= depth` pop loop while
carrying the node just closed; the carried node is attached to the first entry
that stays, or becomes a top-level root if the stack empties. -/
def sbPopCarry (d : Nat) (node : TreeNode) : List SBEntry → List TreeNode → List SBEntry × List TreeNode
  | [], roots => ([], roots ++ [node])
  | e :: rest, roots =>
    if d ≤ e.depth then
      sbPopCarry d (TreeNode.mk e.name e.depth (e.kids ++ [node])) rest roots
    else ({ e with kids := e.kids ++ [node] } :: rest, roots)

/-- The pop loop run on an insertion at depth `d`. -/
def sbPop (d : Nat) : List SBEntry → List TreeNode → List SBEntry × List TreeNode
  | [], roots => ([], roots)
  | e :: rest, roots =>
    if d ≤ e.depth then sbPopCarry d (TreeNode.mk e.name e.depth e.kids) rest roots
    else (e :: rest, roots)

/-- One iteration of the insertion loop of parse_and_build_tree for a parsed
item `(depth, name)`: pop, then push the new entry. -/
def sbInsert (st : List SBEntry × List TreeNode) (item : Nat × List Char) : List SBEntry × List TreeNode :=
  let p := sbPop item.1 st.1 st.2
  (SBEntry.mk item.2 item.1 [] :: p.1, p.2)

/-- Close every remaining open entry at the end of the input (every entry has
depth ≥ 0, so popping at depth 0 drains the stack). -/
def sbFinish (st : List SBEntry × List TreeNode) : List TreeNode :=
  (sbPop 0 st.1 st.2).2

/-- Process the remaining items from an intermediate state. -/
def sbRunFrom (items : List (Nat × List Char)) (st : List SBEntry × List TreeNode) : List TreeNode :=
  sbFinish (items.foldl sbInsert st)

/-- The stack-based forest built from a full sequence of parsed
`(depth, name)` items (the root item is inserted into the empty stack exactly
as any other item, matching the source, where the root is appended to the
initially empty stack). -/
def sbBuild (items : List (Nat × List Char)) : List TreeNode :=
  sbRunFrom items ([], [])

/-! ## Recursive builder (treewatcherTree.py, _build_tree_recursive) -/

/-- RecursiveTreeWatcherApp._build_tree_recursive over the peekable iterator:
consume items while `peek().depth >= min_depth`; a consumed item's children are
built at `min_depth = depth + 1`, then its later siblings continue the loop.
`fuel` bounds the recursion; every recursive call either consumes an item first
or returns at once, so `fuel = items.length` is sufficient
(`buildRecAux_fuel_irrel`).  Returns the nodes built and the unconsumed rest of
the iterator. -/
def buildRecAux : Nat → List (Nat × List Char) → Nat → List TreeNode × List (Nat × List Char)
  | 0, items, _ => ([], items)
  | _ + 1, [], _ => ([], [])
  | fuel + 1, (d, nm) :: rest, minD =>
    if d < minD then ([], (d, nm) :: rest)
    else
      let r1 := buildRecAux fuel rest (d + 1)
      let r2 := buildRecAux fuel r1.2 minD
      (TreeNode.mk nm d r1.1 :: r2.1, r2.2)

/-- The forest produced by the recursive builder on a full item sequence. -/
def buildTreeRecursive (items : List (Nat × List Char)) (minD : Nat) : List TreeNode :=
  (buildRecAux items.length items minD).1

/-! ## The parse-and-build pipeline (treewatcherTree.py, _parse_and_build_tree_thread) -/

/-- Substring containment, modelling Python's `in` on strings. -/
def containsSub (pat : List Char) (s : List Char) : Bool :=
  if startsWith pat s then true
  else
    match s with
    | [] => false
    | _ :: cs => containsSub pat cs

/-- A header/banner line: `"PATH" in line and "listing" in line`, or
`"Volume serial number" in line`. -/
def isBannerLine (l : List Char) : Bool :=
  (containsSub "PATH".toList l && containsSub "listing".toList l) ||
    containsSub "Volume serial number".toList l

/-- The `start_index` computed by the header-skipping loop.  The Python loop
initialises `start_index = 0`, `continue`s over banner lines and sets
`start_index = i` with `break` at the first non-banner line; if every line is
a banner the loop completes and `start_index` keeps its initial value 0. -/
def startIndex (lines : List (List Char)) : Nat :=
  match lines.findIdx? (fun l => !(isBannerLine l)) with
  | some i => i
  | none => 0

/-- One iteration of the phase-1 loop on a line after the root: rstrip, skip
empty lines, parse, and keep the item only when the name is not `None`. -/
def parseItemOfLine (l : List Char) : Option (Nat × List Char) :=
  let l2 := pyRstrip l
  if l2 = [] then none
  else
    let r := parse_line l2
    match r.2 with
    | some nm => some (r.1, nm)
    | none => none

/-- The `parsed_items` list of phase 1: the root line (taken verbatim, rstripped,
at depth 0) followed by the parsed items of the remaining lines.  Only
meaningful when `startIndex lines < lines.length`. -/
def pipelineItems (lines : List (List Char)) : List (Nat × List Char) :=
  let s := startIndex lines
  (0, pyRstrip (lines.getD s [])) :: (lines.drop (s + 1)).filterMap parseItemOfLine

/-- _parse_and_build_tree_thread: `none` models the early
`"No tree structure found."` return, `some roots` the forest handed to
phase 3. -/
def buildFromLines (lines : List (List Char)) : Option (List TreeNode) :=
  if startIndex lines ≥ lines.length then none
  else some (buildTreeRecursive (pipelineItems lines) 0)

/-! ## Progress reports -/

/-- The throttle test `counter[0] % 2000 == 0` of _build_tree_recursive. -/
def rep2000 (k : Nat) : Bool := k % 2000 == 0

/-- The result of the instrumented recursive builder. -/
structure BuildR where
  nodes : List TreeNode
  rest : List (Nat × List Char)
  counter : Nat
  reports : List (Nat × Nat)

/-- _build_tree_recursive with its progress instrumentation: the counter is
incremented once per consumed item, and a `(counter, total)` report is emitted
when the counter is divisible by 2000, before the children are built. -/
def buildRecAuxR : Nat → List (Nat × List Char) → Nat → Nat → Nat → BuildR
  | 0, items, _, c, _ => ⟨[], items, c, []⟩
  | _ + 1, [], _, c, _ => ⟨[], [], c, []⟩
  | fuel + 1, (d, nm) :: rest, minD, c, total =>
    if d < minD then ⟨[], (d, nm) :: rest, c, []⟩
    else
      let c1 := c + 1
      let reps0 := if rep2000 c1 then [(c1, total)] else []
      let r1 := buildRecAuxR fuel rest (d + 1) c1 total
      let r2 := buildRecAuxR fuel r1.rest minD r1.counter total
      ⟨TreeNode.mk nm d r1.nodes :: r2.nodes, r2.rest, r2.counter,
        reps0 ++ r1.reports ++ r2.reports⟩

/-- The `(done, total)` reports of phase 1 (Reading and Parsing lines): the
initial `0/total` report, one `(i - start_index)/total` report at the top of
each loop iteration with `i % 1000 == 0`, and the final `total/total` report. -/
def phase1Reports (lines : List (List Char)) : List (Nat × Nat) :=
  let s := startIndex lines
  let total := lines.length - s
  (0, total) ::
    (((List.range' (s + 1) (lines.length - (s + 1))).filter (fun i => i % 1000 == 0)).map
      (fun i => (i - s, total))) ++ [(total, total)]

/-- The `(done, total)` reports of phase 2 (Building Tree Structure): the
initial report with value 0, the throttled in-recursion reports, and the final
report with value `total_items`. -/
def phase2Reports (lines : List (List Char)) : List (Nat × Nat) :=
  let items := pipelineItems lines
  let total := items.length
  (0, total) :: (buildRecAuxR items.length items 0 0 total).reports ++ [(total, total)]

/-! ## Lazy materializer (treewatcherTree.py, _insert_node_lazy / on_tree_open) -/

/-- Default icon configuration (the values written by load_config when no
config.json is present). -/
def fileIcon : List Char := "📄".toList

def folderIcon : List Char := "📂".toList

def iconImage : List Char := "🖼️".toList

def iconVideo : List Char := "🎬".toList

def iconJson : List Char := "\x7b\x7d".toList

def iconYaml : List Char := "⚙️".toList

def iconTxt : List Char := "📝".toList

/-- Last index of a character in a list (Python str.rfind, `none` for -1). -/
def lastIdxOf (c : Char) (l : List Char) : Option Nat :=
  ((l.enum.filter (fun p => p.2 = c)).getLast?).map (fun p => p.1)

/-- Is there a character other than a dot at an index in `[a, b)`?  (The
`while filenameIndex < dotIndex` loop of ntpath.splitext, which refuses to
split when the basename before the last dot is all dots.) -/
def hasNonDot (p : List Char) (a b : Nat) : Bool :=
  (List.range' a (b - a)).any (fun j => !(p.getD j '.' = '.'))

/-- os.path.splitext(p)[1]: the extension including its dot, or `[]`.
The last separator ('\\' or '/') is located; the extension starts at the last
dot strictly after it, provided some non-dot character of the basename
precedes that dot. -/
def pySplitextExt (p : List Char) : List Char :=
  match lastIdxOf '.' p with
  | none => []
  | some dI =>
    let s1 := lastIdxOf '\\' p
    let s2 := lastIdxOf '/' p
    let sepI : Option Nat :=
      match s1, s2 with
      | none, none => none
      | some a, none => some a
      | none, some b => some b
      | some a, some b => some (max a b)
    match sepI with
    | some sI => if dI ≤ sI then [] else (if hasNonDot p (sI + 1) dI then p.drop dI else [])
    | none => if hasNonDot p 0 dI then p.drop dI else []

/-- TreeWatcherApp.get_file_icon with the default icon configuration. -/
def get_file_icon (filename : List Char) : List Char :=
  let ext := (pySplitextExt filename).map Char.toLower
  if ext = [] then fileIcon
  else if ext ∈ [".png".toList, ".jpg".toList, ".jpeg".toList, ".gif".toList,
      ".bmp".toList, ".ico".toList, ".svg".toList, ".webp".toList] then iconImage
  else if ext ∈ [".mp4".toList, ".avi".toList, ".mkv".toList, ".mov".toList,
      ".wmv".toList, ".flv".toList] then iconVideo
  else if ext = ".json".toList then iconJson
  else if ext ∈ [".yaml".toList, ".yml".toList] then iconYaml
  else if ext ∈ [".txt".toList, ".md".toList, ".log".toList, ".ini".toList,
      ".conf".toList] then iconTxt
  else fileIcon

/-- The text of the dummy child inserted under an unexpanded folder. -/
def loadingText : List Char := "Loading...".toList

/-- A view item: its display text, the TreeNode it is mapped to in `node_map`
(the dummy child is mapped to nothing), and its child items. -/
inductive VItem : Type where
  | mk (text : List Char) (nodeRef : Option TreeNode) (children : List VItem) : VItem

def VItem.text : VItem → List Char
  | .mk t _ _ => t

def VItem.nodeRef : VItem → Option TreeNode
  | .mk _ r _ => r

def VItem.children : VItem → List VItem
  | .mk _ _ cs => cs

/-- The display text `f"{icon} {name}"` of _insert_node_lazy. -/
def displayTextOf (node : TreeNode) : List Char :=
  (if node.is_folder then folderIcon else get_file_icon node.name) ++ ' ' :: node.name

/-- _insert_node_lazy: insert the item, record it in node_map, and give a
folder a single dummy "Loading..." child so that it shows as expandable. -/
def insertNodeLazy (node : TreeNode) : VItem :=
  VItem.mk (displayTextOf node) (some node)
    (if node.is_folder then [VItem.mk loadingText none []] else [])

/-- on_tree_open on one item: when the item is mapped in node_map and has
exactly one child whose text is "Loading...", the dummy is replaced by the
lazily inserted real children; otherwise nothing changes. -/
def onTreeOpen (v : VItem) : VItem :=
  match v.nodeRef with
  | none => v
  | some node =>
    match v.children with
    | [c] =>
      if c.text = loadingText then
        VItem.mk v.text v.nodeRef (node.children.map insertNodeLazy)
      else v
    | _ => v

/-! ## Basic properties of the indentation scan -/

theorem chunkScan_bounds : ∀ (cs : List Char) (i : Nat), 1 ≤ i → i + cs.length ≤ 4 →
    1 ≤ (chunkScan cs i).2.2 ∧ (chunkScan cs i).2.2 ≤ 4 := by
  intro cs
  induction cs with
  | nil => intro i h1 h4; simp [chunkScan]
  | cons c cs ih =>
    intro i h1 h4
    simp only [chunkScan]
    split
    · split
      · simp only
        constructor <;> simp at h4 <;> omega
      · exact ih (i + 1) (by omega) (by simp at h4 ⊢; omega)
    · simp only
      constructor <;> simp at h4 <;> omega

theorem scanIndentAux_stop (fuel : Nat) (line : List Char) (idx depth : Nat)
    (h : line.length ≤ idx) : scanIndentAux fuel line idx depth = (depth, idx) := by
  cases fuel with
  | zero => rfl
  | succ f => simp [scanIndentAux, h]

theorem scanIndentAux_short (fuel : Nat) (line : List Char) (idx depth : Nat)
    (h : line.length < idx + 4) : scanIndentAux (fuel + 1) line idx depth = (depth, idx) := by
  by_cases h2 : line.length ≤ idx
  · exact scanIndentAux_stop _ _ _ _ h2
  · simp only [scanIndentAux]
    rw [if_neg (by omega), if_pos (by omega)]

theorem scanIndentAux_cons (fuel : Nat) (line : List Char) (idx depth : Nat) (c : Char)
    (cs : List Char) (h4 : idx + 4 ≤ line.length) (hc : (line.drop idx).take 4 = c :: cs) :
    scanIndentAux (fuel + 1) line idx depth =
      if isConnChar c then (depth, idx)
      else if isSpacerChar c then
        (let r := chunkScan (c :: cs) 0
         if r.1 then scanIndentAux fuel line (idx + r.2.2) (depth + 1)
         else if r.2.1 then (depth + 1, idx + r.2.2)
         else scanIndentAux fuel line (idx + 4) (depth + 1))
      else (depth, idx) := by
  simp only [scanIndentAux]
  rw [if_neg (by omega), if_neg (by omega), hc]

/-- The safe length by which a spacer-headed chunk advances the scan is
between 1 and 4. -/
theorem chunkScan_spacer_bounds (c : Char) (cs : List Char) (hc : isSpacerChar c = true)
    (hlen : cs.length ≤ 3) :
    1 ≤ (chunkScan (c :: cs) 0).2.2 ∧ (chunkScan (c :: cs) 0).2.2 ≤ 4 := by
  have : chunkScan (c :: cs) 0 = chunkScan cs 1 := by
    simp [chunkScan, hc]
  rw [this]
  exact chunkScan_bounds cs 1 (by omega) (by omega)

/-- Each iteration of the indentation loop advances the scan position by at
least one character; consequently the result is independent of the fuel as soon
as the fuel is at least the number of remaining characters. -/
theorem scanIndentAux_fuel_irrel :
    ∀ (K fuel1 fuel2 : Nat) (line : List Char) (idx depth : Nat),
      line.length - idx ≤ K → line.length - idx ≤ fuel1 → line.length - idx ≤ fuel2 →
      scanIndentAux fuel1 line idx depth = scanIndentAux fuel2 line idx depth := by
  intro K
  induction K with
  | zero =>
    intro fuel1 fuel2 line idx depth hK _ _
    rw [scanIndentAux_stop fuel1 line idx depth (by omega),
      scanIndentAux_stop fuel2 line idx depth (by omega)]
  | succ K ih =>
    intro fuel1 fuel2 line idx depth hK h1 h2
    by_cases hstop : line.length ≤ idx
    · rw [scanIndentAux_stop fuel1 line idx depth hstop,
        scanIndentAux_stop fuel2 line idx depth hstop]
    · obtain ⟨f1, rfl⟩ : ∃ f1, fuel1 = f1 + 1 := ⟨fuel1 - 1, by omega⟩
      obtain ⟨f2, rfl⟩ : ∃ f2, fuel2 = f2 + 1 := ⟨fuel2 - 1, by omega⟩
      by_cases hshort : line.length < idx + 4
      · rw [scanIndentAux_short f1 line idx depth hshort,
          scanIndentAux_short f2 line idx depth hshort]
      · have h4 : idx + 4 ≤ line.length := by omega
        have hlen : ((line.drop idx).take 4).length = 4 := by
          simp [List.length_take, List.length_drop]; omega
        obtain ⟨c, cs, hc⟩ : ∃ c cs, (line.drop idx).take 4 = c :: cs := by
          cases h : (line.drop idx).take 4 with
          | nil => rw [h] at hlen; simp at hlen
          | cons c cs => exact ⟨c, cs, rfl⟩
        rw [scanIndentAux_cons f1 line idx depth c cs h4 hc,
          scanIndentAux_cons f2 line idx depth c cs h4 hc]
        have hcslen : cs.length ≤ 3 := by
          rw [hc] at hlen; simp at hlen; omega
        by_cases hconn : isConnChar c = true
        · simp [hconn]
        · by_cases hspace : isSpacerChar c = true
          · simp only [hconn, hspace, if_false, if_true, Bool.false_eq_true]
            have hb := chunkScan_spacer_bounds c cs hspace hcslen
            split
            · exact ih f1 f2 line (idx + (chunkScan (c :: cs) 0).2.2) (depth + 1)
                (by omega) (by omega) (by omega)
            · split
              · rfl
              · exact ih f1 f2 line (idx + 4) (depth + 1) (by omega) (by omega) (by omega)
          · simp [hconn, hspace]

/-- The depth accumulated by the indentation loop never exceeds the number of
characters it has scanned, and the final position stays within the line. -/
theorem scanIndentAux_depth_le :
    ∀ (fuel : Nat) (line : List Char) (idx depth : Nat), idx ≤ line.length →
      (scanIndentAux fuel line idx depth).1 + idx ≤
          depth + (scanIndentAux fuel line idx depth).2 ∧
        (scanIndentAux fuel line idx depth).2 ≤ line.length := by
  intro fuel
  induction fuel with
  | zero => intro line idx depth h; simp [scanIndentAux]; omega
  | succ f ih =>
    intro line idx depth h
    by_cases hstop : line.length ≤ idx
    · rw [scanIndentAux_stop (f + 1) line idx depth hstop]; simp; omega
    · by_cases hshort : line.length < idx + 4
      · rw [scanIndentAux_short f line idx depth hshort]; simp; omega
      · have h4 : idx + 4 ≤ line.length := by omega
        have hlen : ((line.drop idx).take 4).length = 4 := by
          simp [List.length_take, List.length_drop]; omega
        obtain ⟨c, cs, hc⟩ : ∃ c cs, (line.drop idx).take 4 = c :: cs := by
          cases hcc : (line.drop idx).take 4 with
          | nil => rw [hcc] at hlen; simp at hlen
          | cons c cs => exact ⟨c, cs, rfl⟩
        rw [scanIndentAux_cons f line idx depth c cs h4 hc]
        have hcslen : cs.length ≤ 3 := by
          rw [hc] at hlen; simp at hlen; omega
        by_cases hconn : isConnChar c = true
        · simp [hconn]; omega
        · by_cases hspace : isSpacerChar c = true
          · simp only [hconn, hspace, if_false, if_true, Bool.false_eq_true]
            have hb := chunkScan_spacer_bounds c cs hspace hcslen
            split
            · have := ih line (idx + (chunkScan (c :: cs) 0).2.2) (depth + 1) (by omega)
              omega
            · split
              · simp; omega
              · have := ih line (idx + 4) (depth + 1) (by omega)
                omega
          · simp [hconn, hspace]; omega

theorem parseAfterScan_fst (line : List Char) (p : Nat × Nat) :
    (parseAfterScan line p).1 = p.1 := by
  simp only [parseAfterScan]
  split
  · rfl
  · split
    · rfl
    · split
      · rfl
      · split
        · rfl
        · split
          · rfl
          · split <;> rfl

theorem spacer_not_conn (c : Char) (h : isSpacerChar c = true) : isConnChar c = false := by
  simp only [isSpacerChar, Bool.or_eq_true, decide_eq_true_eq] at h
  rcases h with (h | h) | h <;> subst h <;> decide

theorem glyph_spacer (c : Char) (h : isContGlyph c = true) : isSpacerChar c = true := by
  simp only [isContGlyph, Bool.or_eq_true, decide_eq_true_eq] at h
  rcases h with h | h <;> subst h <;> decide

/-- C9: parse_line is total.  The indentation loop advances by at least one
character per iteration, so any fuel of at least the line length produces the
same answer as the canonical fuel `line.length` (termination of the source's
while loop), and the returned depth — a `Nat`, hence non-negative — is at most
the length of the line. -/
theorem claim_C9_parse_line_total (line : List Char) (fuel : Nat)
    (hfuel : line.length ≤ fuel) :
    parseAfterScan line (scanIndentAux fuel line 0 0) = parse_line line ∧
      (parse_line line).1 ≤ line.length := by
  have heq : scanIndentAux fuel line 0 0 = scanIndentAux line.length line 0 0 :=
    scanIndentAux_fuel_irrel line.length fuel line.length line 0 0 (by omega) (by omega)
      (by omega)
  constructor
  · rw [parse_line, heq]
  · have hd := scanIndentAux_depth_le line.length line 0 0 (by omega)
    rw [parse_line, parseAfterScan_fst]
    omega

/-- Witness for C9 at a concrete line and fuel. -/
theorem claim_C9_witness :
    ("│   ├── a.txt".toList.length ≤ 20) ∧
      (parseAfterScan "│   ├── a.txt".toList (scanIndentAux 20 "│   ├── a.txt".toList 0 0) =
          parse_line "│   ├── a.txt".toList ∧
        (parse_line "│   ├── a.txt".toList).1 ≤ "│   ├── a.txt".toList.length) :=
  ⟨by decide, claim_C9_parse_line_total "│   ├── a.txt".toList 20 (by decide)⟩

/-- C5: compressed indentation.  When a 4-character unit starts with a
continuation glyph or space and a second continuation glyph appears at
position `i` (0 < i < 4), the positions before it holding the spacer run
(plain spaces), the scan step increments depth by exactly 1, advances the
position by exactly `i` (not 4), and continues the indentation loop. -/
theorem claim_C5_compressed_indent (line : List Char) (idx depth fuel : Nat)
    (c0 c1 c2 c3 : Char) (i : Nat)
    (hchunk : (line.drop idx).take 4 = [c0, c1, c2, c3])
    (hc0 : isSpacerChar c0 = true)
    (hi0 : 0 < i) (hi4 : i < 4)
    (hg : isContGlyph ([c0, c1, c2, c3].getD i ' ') = true)
    (hsp : ∀ j, 0 < j → j < i → [c0, c1, c2, c3].getD j ' ' = ' ') :
    scanIndentAux (fuel + 1) line idx depth = scanIndentAux fuel line (idx + i) (depth + 1) := by
  have h4 : idx + 4 ≤ line.length := by
    have := congrArg List.length hchunk
    simp [List.length_take, List.length_drop] at this
    omega
  have hscan : chunkScan [c0, c1, c2, c3] 0 = (true, false, i) := by
    have step0 : chunkScan [c0, c1, c2, c3] 0 = chunkScan [c1, c2, c3] 1 := by
      simp [chunkScan, hc0]
    interval_cases i
    · have hg1 : isContGlyph c1 = true := by simpa using hg
      rw [step0]
      simp [chunkScan, glyph_spacer c1 hg1, hg1]
    · have hg2 : c2 = '│' ∨ c2 = '|' := by
        have := hg; simp only [List.getD, isContGlyph] at this; simpa using this
      have hc1 : c1 = ' ' := by simpa using hsp 1 (by omega) (by omega)
      subst hc1
      rw [step0]
      simp [chunkScan, isSpacerChar, isContGlyph, hg2]
    · have hg3 : c3 = '│' ∨ c3 = '|' := by
        have := hg; simp only [List.getD, isContGlyph] at this; simpa using this
      have hc1 : c1 = ' ' := by simpa using hsp 1 (by omega) (by omega)
      have hc2 : c2 = ' ' := by simpa using hsp 2 (by omega) (by omega)
      subst hc1; subst hc2
      rw [step0]
      simp [chunkScan, isSpacerChar, isContGlyph, hg3]
  rw [scanIndentAux_cons fuel line idx depth c0 [c1, c2, c3] h4 hchunk]
  simp [spacer_not_conn c0 hc0, hc0, hscan]

/-- Witness for C5: the line consisting of the unit `│ | ` followed by x, with
the inner glyph at position 2. -/
theorem claim_C5_witness :
    (("│ | x".toList.drop 0).take 4 = ['│', ' ', '|', ' '] ∧
        isSpacerChar '│' = true ∧ (0:Nat) < 2 ∧ (2:Nat) < 4 ∧
        isContGlyph (['│', ' ', '|', ' '].getD 2 ' ') = true) ∧
      scanIndentAux 5 "│ | x".toList 0 0 = scanIndentAux 4 "│ | x".toList (0 + 2) (0 + 1) :=
  ⟨⟨by decide, by decide, by decide, by decide, by decide⟩,
    claim_C5_compressed_indent "│ | x".toList 0 0 4 '│' ' ' '|' ' ' 2 (by decide) (by decide)
      (by decide) (by decide) (by decide)
      (by intro j h1 h2; interval_cases j; decide)⟩

/-! ## Properties of the recursive builder -/

/-- The unconsumed rest of the iterator never grows. -/
theorem buildRecAux_len :
    ∀ (fuel : Nat) (items : List (Nat × List Char)) (minD : Nat),
      (buildRecAux fuel items minD).2.length ≤ items.length := by
  intro fuel
  induction fuel with
  | zero => intro items minD; simp [buildRecAux]
  | succ f ih =>
    intro items minD
    cases items with
    | nil => simp [buildRecAux]
    | cons it rest =>
      obtain ⟨d, nm⟩ := it
      simp only [buildRecAux]
      split
      · simp
      · have h1 := ih rest (d + 1)
        have h2 := ih (buildRecAux f rest (d + 1)).2 minD
        simp only [List.length_cons]
        omega

/-- The recursive builder consumes items up to the first one whose depth is
below `minD`. -/
theorem buildRecAux_cut :
    ∀ (fuel : Nat) (items : List (Nat × List Char)) (minD : Nat), items.length ≤ fuel →
      (buildRecAux fuel items minD).2 = [] ∨
        ∃ h t, (buildRecAux fuel items minD).2 = h :: t ∧ h.1 < minD := by
  intro fuel
  induction fuel with
  | zero =>
    intro items minD h
    left
    have : items = [] := List.length_eq_zero.mp (by omega)
    subst this
    rfl
  | succ f ih =>
    intro items minD h
    cases items with
    | nil => left; rfl
    | cons it rest =>
      obtain ⟨d, nm⟩ := it
      simp only [buildRecAux]
      split
      · right
        exact ⟨(d, nm), rest, rfl, by assumption⟩
      · have hlen : (buildRecAux f rest (d + 1)).2.length ≤ f := by
          have := buildRecAux_len f rest (d + 1)
          simp at h
          omega
        exact ih (buildRecAux f rest (d + 1)).2 minD hlen

/-! ## The stack builder simulates the recursive builder -/

theorem sbRunFrom_nil (st : List SBEntry × List TreeNode) : sbRunFrom [] st = sbFinish st := rfl

theorem sbRunFrom_cons (it : Nat × List Char) (rest : List (Nat × List Char))
    (st : List SBEntry × List TreeNode) :
    sbRunFrom (it :: rest) st = sbRunFrom rest (sbInsert st it) := rfl

/-- Closing an open entry into the entry below it: once every remaining item
has depth at most the top entry's depth, processing from a state with the top
entry still open is the same as processing after attaching its finished node
to the entry below. -/
theorem sbClose_mid (items : List (Nat × List Char)) (nm' : List Char) (d' : Nat)
    (kids' : List TreeNode) (nm : List Char) (d : Nat) (kids : List TreeNode)
    (stack : List SBEntry) (roots : List TreeNode)
    (hcut : items = [] ∨ ∃ h t, items = h :: t ∧ h.1 ≤ d') :
    sbRunFrom items (SBEntry.mk nm' d' kids' :: SBEntry.mk nm d kids :: stack, roots) =
      sbRunFrom items
        (SBEntry.mk nm d (kids ++ [TreeNode.mk nm' d' kids']) :: stack, roots) := by
  rcases hcut with rfl | ⟨h0, t, rfl, hle⟩
  · rw [sbRunFrom_nil, sbRunFrom_nil]
    simp [sbFinish, sbPop, sbPopCarry]
  · rw [sbRunFrom_cons, sbRunFrom_cons]
    congr 1
    simp only [sbInsert, sbPop]
    rw [if_pos (by omega)]
    by_cases hled : h0.1 ≤ d
    · simp [sbPopCarry, hled]
    · simp [sbPopCarry, hled]

/-- Closing the bottom entry of the stack into the top-level roots. -/
theorem sbClose_root (items : List (Nat × List Char)) (nm' : List Char) (d' : Nat)
    (kids' : List TreeNode) (roots : List TreeNode)
    (hcut : items = [] ∨ ∃ h t, items = h :: t ∧ h.1 ≤ d') :
    sbRunFrom items ([SBEntry.mk nm' d' kids'], roots) =
      sbRunFrom items ([], roots ++ [TreeNode.mk nm' d' kids']) := by
  rcases hcut with rfl | ⟨h0, t, rfl, hle⟩
  · rw [sbRunFrom_nil, sbRunFrom_nil]
    simp [sbFinish, sbPop, sbPopCarry]
  · rw [sbRunFrom_cons, sbRunFrom_cons]
    congr 1
    simp only [sbInsert, sbPop]
    rw [if_pos (by omega)]
    simp [sbPopCarry]

/-- Main simulation lemma: with an open entry of depth `d` on top of the
stack, the stack builder processes the upcoming run of items of depth > d
exactly as the recursive builder does when building that entry's children at
`min_depth = d + 1`. -/
theorem sbRun_build (N : Nat) :
    ∀ (items : List (Nat × List Char)), items.length ≤ N →
      ∀ (fuel : Nat), items.length ≤ fuel →
        ∀ (nm : List Char) (d : Nat) (kids : List TreeNode) (stack : List SBEntry)
          (roots : List TreeNode),
          sbRunFrom items (SBEntry.mk nm d kids :: stack, roots) =
            sbRunFrom (buildRecAux fuel items (d + 1)).2
              (SBEntry.mk nm d (kids ++ (buildRecAux fuel items (d + 1)).1) :: stack,
                roots) := by
  induction N with
  | zero =>
    intro items hN fuel hfuel nm d kids stack roots
    have : items = [] := List.length_eq_zero.mp (by omega)
    subst this
    cases fuel <;> simp [buildRecAux]
  | succ N ih =>
    intro items hN fuel hfuel nm d kids stack roots
    cases items with
    | nil => cases fuel <;> simp [buildRecAux]
    | cons it rest =>
      obtain ⟨d1, nm1⟩ := it
      obtain ⟨f, rfl⟩ : ∃ f, fuel = f + 1 := ⟨fuel - 1, by simp at hfuel; omega⟩
      by_cases hlt : d1 < d + 1
      · simp only [buildRecAux, if_pos hlt]
        simp
      · have hstep : sbInsert (SBEntry.mk nm d kids :: stack, roots) (d1, nm1) =
            (SBEntry.mk nm1 d1 [] :: SBEntry.mk nm d kids :: stack, roots) := by
          simp only [sbInsert, sbPop]
          rw [if_neg (by simp; omega)]
        rw [sbRunFrom_cons, hstep]
        have hrest_len : rest.length ≤ N := by simp at hN; omega
        have hrest_fuel : rest.length ≤ f := by simp at hfuel; omega
        have h1 := ih rest hrest_len f hrest_fuel nm1 d1 [] (SBEntry.mk nm d kids :: stack)
          roots
        rw [h1]
        have hcut := buildRecAux_cut f rest (d1 + 1) hrest_fuel
        have hcut' : (buildRecAux f rest (d1 + 1)).2 = [] ∨
            ∃ h t, (buildRecAux f rest (d1 + 1)).2 = h :: t ∧ h.1 ≤ d1 := by
          rcases hcut with h | ⟨h0, t, heq, hlt0⟩
          · exact Or.inl h
          · exact Or.inr ⟨h0, t, heq, by omega⟩
        have h2 := sbClose_mid (buildRecAux f rest (d1 + 1)).2 nm1 d1
          (buildRecAux f rest (d1 + 1)).1 nm d kids stack roots hcut'
        simp only [List.nil_append]
        rw [h2]
        have hr1_len : (buildRecAux f rest (d1 + 1)).2.length ≤ N := by
          have := buildRecAux_len f rest (d1 + 1)
          omega
        have hr1_fuel : (buildRecAux f rest (d1 + 1)).2.length ≤ f := by
          have := buildRecAux_len f rest (d1 + 1)
          omega
        have h3 := ih (buildRecAux f rest (d1 + 1)).2 hr1_len f hr1_fuel nm d
          (kids ++ [TreeNode.mk nm1 d1 (buildRecAux f rest (d1 + 1)).1]) stack roots
        rw [h3]
        simp only [buildRecAux, if_neg hlt]
        simp

/-- Root-level simulation: processing a full item run on an empty stack yields
the recursive builder's forest appended to the roots accumulated so far. -/
theorem sbRun_root (N : Nat) :
    ∀ (items : List (Nat × List Char)), items.length ≤ N →
      ∀ (fuel : Nat), items.length ≤ fuel →
        ∀ (roots : List TreeNode),
          sbRunFrom items ([], roots) = roots ++ (buildRecAux fuel items 0).1 := by
  induction N with
  | zero =>
    intro items hN fuel hfuel roots
    have : items = [] := List.length_eq_zero.mp (by omega)
    subst this
    cases fuel <;> simp [buildRecAux, sbRunFrom_nil, sbFinish, sbPop]
  | succ N ih =>
    intro items hN fuel hfuel roots
    cases items with
    | nil => cases fuel <;> simp [buildRecAux, sbRunFrom_nil, sbFinish, sbPop]
    | cons it rest =>
      obtain ⟨d1, nm1⟩ := it
      obtain ⟨f, rfl⟩ : ∃ f, fuel = f + 1 := ⟨fuel - 1, by simp at hfuel; omega⟩
      have hstep : sbInsert (([] : List SBEntry), roots) (d1, nm1) =
          ([SBEntry.mk nm1 d1 []], roots) := by
        simp [sbInsert, sbPop]
      rw [sbRunFrom_cons, hstep]
      have hrest_len : rest.length ≤ N := by simp at hN; omega
      have hrest_fuel : rest.length ≤ f := by simp at hfuel; omega
      have h1 := sbRun_build N rest hrest_len f hrest_fuel nm1 d1 [] [] roots
      rw [h1]
      have hcut := buildRecAux_cut f rest (d1 + 1) hrest_fuel
      have hcut' : (buildRecAux f rest (d1 + 1)).2 = [] ∨
          ∃ h t, (buildRecAux f rest (d1 + 1)).2 = h :: t ∧ h.1 ≤ d1 := by
        rcases hcut with h | ⟨h0, t, heq, hlt0⟩
        · exact Or.inl h
        · exact Or.inr ⟨h0, t, heq, by omega⟩
      have h2 := sbClose_root (buildRecAux f rest (d1 + 1)).2 nm1 d1
        (buildRecAux f rest (d1 + 1)).1 roots hcut'
      simp only [List.nil_append]
      rw [h2]
      have hr1_len : (buildRecAux f rest (d1 + 1)).2.length ≤ N := by
        have := buildRecAux_len f rest (d1 + 1)
        omega
      have hr1_fuel : (buildRecAux f rest (d1 + 1)).2.length ≤ f := by
        have := buildRecAux_len f rest (d1 + 1)
        omega
      have h3 := ih (buildRecAux f rest (d1 + 1)).2 hr1_len f hr1_fuel
        (roots ++ [TreeNode.mk nm1 d1 (buildRecAux f rest (d1 + 1)).1])
      rw [h3]
      simp only [buildRecAux, if_neg (by omega : ¬ d1 < 0)]
      simp

/-- C1: the stack-based forest builder and the recursive (lookahead) forest
builder produce identical forests — same roots, names, depth fields and
sibling order — for every input sequence of parsed (depth, name) items. -/
theorem claim_C1_builders_equivalent (items : List (Nat × List Char)) :
    sbBuild items = buildTreeRecursive items 0 := by
  have := sbRun_root items.length items le_rfl items.length le_rfl []
  simpa [sbBuild, buildTreeRecursive] using this

/-! ## Depth ordering of built forests (C4) -/

/-- Every node of the tree has children whose depth fields are strictly
greater than its own. -/
inductive DeepOk : TreeNode → Prop where
  | intro (nm : List Char) (d : Nat) (cs : List TreeNode) :
      (∀ c ∈ cs, d < c.depth) → (∀ c ∈ cs, DeepOk c) → DeepOk (TreeNode.mk nm d cs)

/-- Nodes built at `min_depth = minD` have depth at least `minD`, and children
always have strictly greater depth fields than their parents. -/
theorem buildRecAux_deepOk (N : Nat) :
    ∀ (items : List (Nat × List Char)), items.length ≤ N →
      ∀ (fuel : Nat), items.length ≤ fuel → ∀ (minD : Nat),
        ∀ t ∈ (buildRecAux fuel items minD).1, minD ≤ t.depth ∧ DeepOk t := by
  induction N with
  | zero =>
    intro items hN fuel hfuel minD t ht
    have : items = [] := List.length_eq_zero.mp (by omega)
    subst this
    cases fuel <;> simp [buildRecAux] at ht
  | succ N ih =>
    intro items hN fuel hfuel minD t ht
    cases items with
    | nil => cases fuel <;> simp [buildRecAux] at ht
    | cons it rest =>
      obtain ⟨d1, nm1⟩ := it
      obtain ⟨f, rfl⟩ : ∃ f, fuel = f + 1 := ⟨fuel - 1, by simp at hfuel; omega⟩
      simp only [buildRecAux] at ht
      split at ht
      · simp at ht
      · simp only [List.mem_cons] at ht
        have hrest_len : rest.length ≤ N := by simp at hN; omega
        have hrest_fuel : rest.length ≤ f := by simp at hfuel; omega
        rcases ht with rfl | hmem
        · refine ⟨by simp [TreeNode.depth]; omega, ?_⟩
          refine DeepOk.intro _ _ _ ?_ ?_
          · intro c hc
            have := ih rest hrest_len f hrest_fuel (d1 + 1) c hc
            omega
          · intro c hc
            exact (ih rest hrest_len f hrest_fuel (d1 + 1) c hc).2
        · have hr1_len : (buildRecAux f rest (d1 + 1)).2.length ≤ N := by
            have := buildRecAux_len f rest (d1 + 1)
            omega
          have hr1_fuel : (buildRecAux f rest (d1 + 1)).2.length ≤ f := by
            have := buildRecAux_len f rest (d1 + 1)
            omega
          exact ih (buildRecAux f rest (d1 + 1)).2 hr1_len f hr1_fuel minD t hmem

/-- A two-line input whose second line jumps from depth 0 straight to
depth 3 (twelve leading spaces). -/
def c4Lines : List (List Char) := ["C:.".toList, "            └── x".toList]

/-- C4 counterexample: the built child keeps its parsed depth field 3 although
its parent is the depth-0 root, so a child's depth field does not equal the
parent's depth plus 1. -/
theorem claim_C4_counterexample :
    buildFromLines c4Lines =
        some [TreeNode.mk "C:.".toList 0 [TreeNode.mk "x".toList 3 []]] ∧
      (TreeNode.mk "x".toList 3 []).depth ≠
        (TreeNode.mk "C:.".toList 0 [TreeNode.mk "x".toList 3 []]).depth + 1 :=
  ⟨rfl, by decide⟩

/-- C4 amended: in every forest produced by building, each child's depth field
is strictly greater than its parent's depth field (items with a depth jump are
reparented to the deepest available ancestor without inventing intermediate
levels, but their stored depth is the parsed one, not the clamped one). -/
theorem claim_C4_amended (lines : List (List Char)) (forest : List TreeNode)
    (h : buildFromLines lines = some forest) : ∀ t ∈ forest, DeepOk t := by
  intro t ht
  unfold buildFromLines at h
  split at h
  · exact absurd h (by simp)
  · have hf : forest = buildTreeRecursive (pipelineItems lines) 0 := by
      injection h with h2
      exact h2.symm
    subst hf
    exact (buildRecAux_deepOk (pipelineItems lines).length (pipelineItems lines) le_rfl
      (pipelineItems lines).length le_rfl 0 t ht).2

/-- Witness for C4 amended at the depth-jump input. -/
theorem claim_C4_witness :
    DeepOk (TreeNode.mk "C:.".toList 0 [TreeNode.mk "x".toList 3 []]) :=
  claim_C4_amended c4Lines [TreeNode.mk "C:.".toList 0 [TreeNode.mk "x".toList 3 []]] rfl
    (TreeNode.mk "C:.".toList 0 [TreeNode.mk "x".toList 3 []]) (by simp)

/-! ## Concrete scenarios (C2, C3, C6) -/

/-- Concrete scenario 1 of the spec. -/
def scenario1Lines : List (List Char) :=
  ["C:.".toList, "├── fileA.txt".toList, "└── dirB".toList, "    └── fileC.txt".toList]

/-- C2 counterexample: on scenario 1 the pipeline produces a forest with three
roots, not one — the connector-prefixed lines parse at depth 0 and therefore
pop the root off the stack / fall outside the root's children window. -/
theorem claim_C2_counterexample :
    buildFromLines scenario1Lines =
        some [TreeNode.mk "C:.".toList 0 [], TreeNode.mk "fileA.txt".toList 0 [],
          TreeNode.mk "dirB".toList 0 [TreeNode.mk "fileC.txt".toList 1 []]] ∧
      (buildFromLines scenario1Lines).map List.length ≠ some 1 :=
  ⟨rfl, by decide⟩

/-- C2 amended: scenario 1 yields a forest with three roots — `C:.` (a leaf),
`fileA.txt` (a leaf), and `dirB` (a folder) whose only child is `fileC.txt`
(a leaf). -/
theorem claim_C2_amended :
    buildFromLines scenario1Lines =
        some [TreeNode.mk "C:.".toList 0 [], TreeNode.mk "fileA.txt".toList 0 [],
          TreeNode.mk "dirB".toList 0 [TreeNode.mk "fileC.txt".toList 1 []]] ∧
      (TreeNode.mk "C:.".toList 0 []).is_folder = false ∧
      (TreeNode.mk "fileA.txt".toList 0 []).is_folder = false ∧
      (TreeNode.mk "dirB".toList 0 [TreeNode.mk "fileC.txt".toList 1 []]).is_folder = true ∧
      (TreeNode.mk "fileC.txt".toList 1 []).is_folder = false :=
  ⟨rfl, rfl, rfl, rfl, rfl⟩

/-- The banner line of concrete scenario 4. -/
def bannerLine : List Char := "Folder PATH listing for volume C".toList

/-- C3: the code's behavior at the claim's inputs.  Empty input does produce
the no-tree outcome, but an input consisting of a single banner line does not:
the header-skipping loop leaves `start_index` at its initial value 0 when every
line is a banner, so the banner line itself becomes the root, although it is a
banner (`isBannerLine` holds) and the claim, and the skipping loop's evident
purpose, require the NoRootFound outcome. -/
theorem claim_C3_code_behavior :
    buildFromLines ([] : List (List Char)) = none ∧
      buildFromLines [bannerLine] = some [TreeNode.mk bannerLine 0 []] ∧
      isBannerLine bannerLine = true :=
  ⟨rfl, rfl, by decide⟩

/-- Concrete scenario 2 of the spec. -/
def scenario2Lines : List (List Char) :=
  ["C:.".toList, "│   ├── a.txt".toList, "│   └── b.txt".toList]

/-- C6 counterexample: the parsed depth of `a.txt` and `b.txt` in scenario 2
is 1 (one indentation unit before the connector, which itself is not counted),
not 2 as the claim states. -/
theorem claim_C6_counterexample :
    (parse_line "│   ├── a.txt".toList).1 = 1 ∧
      (parse_line "│   └── b.txt".toList).1 = 1 ∧ (1 : Nat) ≠ 2 := by
  refine ⟨by decide, by decide, by decide⟩

/-- C6 amended: the depth of `a.txt` and `b.txt` resolves to 1, and both nodes
attach directly under the root `C:.` as ordinary depth-1 children (no fallback
clamp is involved: 1 = 0 + 1). -/
theorem claim_C6_amended :
    parse_line "│   ├── a.txt".toList = (1, some "a.txt".toList) ∧
      parse_line "│   └── b.txt".toList = (1, some "b.txt".toList) ∧
      buildFromLines scenario2Lines =
        some [TreeNode.mk "C:.".toList 0
          [TreeNode.mk "a.txt".toList 1 [], TreeNode.mk "b.txt".toList 1 []]] :=
  ⟨by decide, by decide, rfl⟩

/-! ## Lazy materializer idempotence (C8) -/

/-- get_file_icon always returns a non-empty icon that does not start with
the letter L. -/
theorem get_file_icon_shape (nm : List Char) :
    ∃ c cs, get_file_icon nm = c :: cs ∧ (c = 'L' → False) := by
  simp only [get_file_icon]
  split
  · exact ⟨'📄', [], rfl, by decide⟩
  · split
    · exact ⟨'🖼', ['️'], rfl, by decide⟩
    · split
      · exact ⟨'🎬', [], rfl, by decide⟩
      · split
        · exact ⟨'\x7b', ['\x7d'], rfl, by decide⟩
        · split
          · exact ⟨'⚙', ['️'], rfl, by decide⟩
          · split
            · exact ⟨'📝', [], rfl, by decide⟩
            · exact ⟨'📄', [], rfl, by decide⟩

/-- No display text produced by _insert_node_lazy equals the dummy text
"Loading...": every display text starts with an icon character. -/
theorem displayTextOf_ne_loading (t : TreeNode) : displayTextOf t = loadingText → False := by
  intro h
  have hh := congrArg List.head? h
  by_cases hf : t.is_folder
  · rw [displayTextOf, if_pos hf] at hh
    rw [show folderIcon = ['📂'] from rfl] at hh
    simp [loadingText] at hh
  · rw [displayTextOf, if_neg hf] at hh
    obtain ⟨c, cs, hc, hne⟩ := get_file_icon_shape t.name
    rw [hc] at hh
    simp [loadingText] at hh
    exact hne hh

/-- C8: expanding a node through the lazy materializer twice yields equal
child sequences both times — the second on_tree_open finds no dummy
"Loading..." child and leaves the already-computed children untouched. -/
theorem claim_C8_expand_idempotent (t : TreeNode) :
    (onTreeOpen (onTreeOpen (insertNodeLazy t))).children =
      (onTreeOpen (insertNodeLazy t)).children := by
  obtain ⟨nm, d, cs⟩ := t
  by_cases hf : (TreeNode.mk nm d cs).is_folder
  · have h1 : onTreeOpen (insertNodeLazy (TreeNode.mk nm d cs)) =
        VItem.mk (displayTextOf (TreeNode.mk nm d cs)) (some (TreeNode.mk nm d cs))
          (cs.map insertNodeLazy) := by
      rw [insertNodeLazy, if_pos hf]
      rfl
    rw [h1]
    cases cs with
    | nil => simp [TreeNode.is_folder, TreeNode.children] at hf
    | cons c0 cs0 =>
      cases cs0 with
      | nil =>
        show (onTreeOpen (VItem.mk _ _ [insertNodeLazy c0])).children = _
        rw [onTreeOpen]
        simp only [VItem.nodeRef, VItem.children]
        rw [if_neg (by
          intro hcontra
          exact displayTextOf_ne_loading c0 hcontra)]
        rfl
      | cons c1 cs1 => rfl
  · have h1 : insertNodeLazy (TreeNode.mk nm d cs) =
        VItem.mk (displayTextOf (TreeNode.mk nm d cs)) (some (TreeNode.mk nm d cs)) [] := by
      rw [insertNodeLazy, if_neg hf]
    rw [h1]
    rfl

/-! ## Connector-only lines (C10) -/

/-- The remainder of the line after the indentation scan, `line[idx:]`. -/
def nameRemainder (line : List Char) : List Char :=
  line.drop (scanIndentAux line.length line 0 0).2

/-- C10: a line that is exactly a connector yields the empty-string name, not
`None`; and in general the spacer outcome `(depth, None)` arises only when the
remainder strips to nothing, strips to a lone continuation glyph, or (failing
every connector) starts with a continuation glyph — never from a matched
connector.  Downstream building turns a connector-only line into a node whose
name is the empty string. -/
theorem claim_C10_connector_only :
    parse_line "├──".toList = (0, some []) ∧
      parse_line "└── ".toList = (0, some []) ∧
      buildFromLines ["C:.".toList, "├──".toList] =
        some [TreeNode.mk "C:.".toList 0 [], TreeNode.mk [] 0 []] ∧
      ∀ (line : List Char) (d : Nat), parse_line line = (d, none) →
        pyStrip (nameRemainder line) = [] ∨
          pyStrip (nameRemainder line) = ['│'] ∨ pyStrip (nameRemainder line) = ['|'] ∨
          (stripFirstMark connectorMarks (nameRemainder line) = none ∧
            (startsWith ['│'] (nameRemainder line) = true ∨
              startsWith ['|'] (nameRemainder line) = true)) := by
  refine ⟨by decide, by decide, rfl, ?_⟩
  intro line d h
  rw [parse_line, parseAfterScan] at h
  rw [show line.drop (scanIndentAux line.length line 0 0).2 = nameRemainder line from rfl] at h
  split at h
  · left; assumption
  · split at h
    · rename_i hglyph
      rcases (by simpa using hglyph :
          pyStrip (nameRemainder line) = ['│'] ∨ pyStrip (nameRemainder line) = ['|']) with
        h1 | h1
      · right; left; exact h1
      · right; right; left; exact h1
    · split at h
      · exact absurd h (by simp)
      · rename_i hmark
        split at h
        · rename_i hstart
          right; right; right
          exact ⟨hmark, by simpa using hstart⟩
        · split at h
          · exact absurd h (by simp)
          · split at h
            · exact absurd h (by simp)
            · exact absurd h (by simp)

/-- Witness for C10 at the lone-glyph line. -/
theorem claim_C10_witness :
    parse_line ['│'] = (0, none) ∧
      (pyStrip (nameRemainder ['│']) = [] ∨
        pyStrip (nameRemainder ['│']) = ['│'] ∨ pyStrip (nameRemainder ['│']) = ['|'] ∨
        (stripFirstMark connectorMarks (nameRemainder ['│']) = none ∧
          (startsWith ['│'] (nameRemainder ['│']) = true ∨
            startsWith ['|'] (nameRemainder ['│']) = true))) :=
  ⟨by decide, claim_C10_connector_only.2.2.2 ['│'] 0 (by decide)⟩

/-! ## Progress report characterization (C7) -/

/-- The instrumented recursive builder computes the same nodes and rest as the
plain one; its counter advances by exactly the number of consumed items, and
its reports are exactly the multiples of 2000 among the counter values
`c+1, ..., c+consumed`, in increasing order, paired with the total. -/
theorem buildRecAuxR_spec (N : Nat) :
    ∀ (items : List (Nat × List Char)), items.length ≤ N →
      ∀ (fuel : Nat), items.length ≤ fuel → ∀ (minD c total : Nat),
        (buildRecAuxR fuel items minD c total).nodes = (buildRecAux fuel items minD).1 ∧
        (buildRecAuxR fuel items minD c total).rest = (buildRecAux fuel items minD).2 ∧
        (buildRecAuxR fuel items minD c total).counter =
          c + (items.length - (buildRecAux fuel items minD).2.length) ∧
        (buildRecAuxR fuel items minD c total).reports =
          ((List.range' (c + 1)
              (items.length - (buildRecAux fuel items minD).2.length)).filter rep2000).map
            (fun k => (k, total)) := by
  induction N with
  | zero =>
    intro items hN fuel hfuel minD c total
    have : items = [] := List.length_eq_zero.mp (by omega)
    subst this
    cases fuel <;> simp [buildRecAuxR, buildRecAux]
  | succ N ih =>
    intro items hN fuel hfuel minD c total
    cases items with
    | nil => cases fuel <;> simp [buildRecAuxR, buildRecAux]
    | cons it rest =>
      obtain ⟨d1, nm1⟩ := it
      obtain ⟨f, rfl⟩ : ∃ f, fuel = f + 1 := ⟨fuel - 1, by simp at hfuel; omega⟩
      by_cases hlt : d1 < minD
      · simp [buildRecAuxR, buildRecAux, hlt]
      · have hrest_len : rest.length ≤ N := by simp at hN; omega
        have hrest_fuel : rest.length ≤ f := by simp at hfuel; omega
        have ih1 := ih rest hrest_len f hrest_fuel (d1 + 1) (c + 1) total
        have hA1_len := buildRecAux_len f rest (d1 + 1)
        have hA2_len := buildRecAux_len f (buildRecAux f rest (d1 + 1)).2 minD
        have hr1_len : (buildRecAux f rest (d1 + 1)).2.length ≤ N := by omega
        have hr1_fuel : (buildRecAux f rest (d1 + 1)).2.length ≤ f := by omega
        have ih2 := ih (buildRecAux f rest (d1 + 1)).2 hr1_len f hr1_fuel minD
          (c + 1 + (rest.length - (buildRecAux f rest (d1 + 1)).2.length)) total
        simp only [buildRecAuxR, buildRecAux, if_neg hlt]
        obtain ⟨ih1n, ih1r, ih1c, ih1reps⟩ := ih1
        rw [ih1r, ih1c]
        obtain ⟨ih2n, ih2r, ih2c, ih2reps⟩ := ih2
        refine ⟨by rw [ih1n, ih2n], by rw [ih2r], ?_, ?_⟩
        · rw [ih2c]
          simp only [List.length_cons]
          omega
        · rw [ih2reps, ih1reps]
          have hk1 : rest.length - (buildRecAux f rest (d1 + 1)).2.length +
              ((buildRecAux f rest (d1 + 1)).2.length -
                (buildRecAux f (buildRecAux f rest (d1 + 1)).2 minD).2.length) + 1 =
              ((d1, nm1) :: rest).length -
                (buildRecAux f (buildRecAux f rest (d1 + 1)).2 minD).2.length := by
            simp only [List.length_cons]
            omega
          have hsplit : List.range' (c + 1)
              (((d1, nm1) :: rest).length -
                (buildRecAux f (buildRecAux f rest (d1 + 1)).2 minD).2.length) =
              [c + 1] ++
                List.range' (c + 1 + 1) (rest.length - (buildRecAux f rest (d1 + 1)).2.length) ++
                List.range' (c + 1 + (rest.length - (buildRecAux f rest (d1 + 1)).2.length) + 1)
                  ((buildRecAux f rest (d1 + 1)).2.length -
                    (buildRecAux f (buildRecAux f rest (d1 + 1)).2 minD).2.length) := by
            rw [show ([c + 1] : List Nat) = List.range' (c + 1) 1 from (List.range'_one).symm]
            rw [List.range'_append_1 (c + 1) 1
              (rest.length - (buildRecAux f rest (d1 + 1)).2.length)]
            rw [show c + 1 + (rest.length - (buildRecAux f rest (d1 + 1)).2.length) + 1 =
              c + 1 + (rest.length - (buildRecAux f rest (d1 + 1)).2.length + 1) by omega]
            rw [List.range'_append_1 (c + 1)
              (rest.length - (buildRecAux f rest (d1 + 1)).2.length + 1)
              ((buildRecAux f rest (d1 + 1)).2.length -
                (buildRecAux f (buildRecAux f rest (d1 + 1)).2 minD).2.length)]
            congr 1
            omega
          rw [hsplit]
          rw [List.filter_append, List.filter_append, List.map_append, List.map_append]
          congr 1
          congr 1
          by_cases hdvd : rep2000 (c + 1) <;> simp [hdvd]

/-- At `min_depth = 0` the recursive builder consumes the entire iterator. -/
theorem buildRecAux_consume_all (fuel : Nat) (items : List (Nat × List Char))
    (h : items.length ≤ fuel) : (buildRecAux fuel items 0).2 = [] := by
  rcases buildRecAux_cut fuel items 0 h with h0 | ⟨h0, t, _, hlt⟩
  · exact h0
  · omega

/-- Closed form of the phase-2 report sequence: the initial 0 report, the
multiples of 2000 up to `total_items` in increasing order, and the final
`total_items` report. -/
theorem phase2Reports_eq (lines : List (List Char)) :
    phase2Reports lines =
      (0, (pipelineItems lines).length) ::
        (((List.range' 1 (pipelineItems lines).length).filter rep2000).map
          (fun k => (k, (pipelineItems lines).length)) ++
        [((pipelineItems lines).length, (pipelineItems lines).length)]) := by
  have hrest : (buildRecAux (pipelineItems lines).length (pipelineItems lines) 0).2 = [] :=
    buildRecAux_consume_all (pipelineItems lines).length (pipelineItems lines) le_rfl
  have hspec := buildRecAuxR_spec (pipelineItems lines).length (pipelineItems lines) le_rfl
    (pipelineItems lines).length le_rfl 0 0 (pipelineItems lines).length
  obtain ⟨_, _, _, hreps⟩ := hspec
  rw [hrest] at hreps
  simp only [List.length_nil, Nat.sub_zero, Nat.zero_add] at hreps
  simp only [phase2Reports]
  rw [hreps]
  rfl

/-- Generic phase-2 shape: the report pairs are non-decreasing in done. -/
theorem phase2_shape_pairwise (T : Nat) :
    ((0, T) :: (((List.range' 1 T).filter rep2000).map (fun k => (k, T)) ++
        [(T, T)])).Pairwise (fun a b : Nat × Nat => a.1 ≤ b.1) := by
  refine List.Pairwise.cons ?_ ?_
  · intro b _
    simp
  · refine List.pairwise_append.mpr ⟨?_, by simp, ?_⟩
    · rw [List.pairwise_map]
      have hP : ((List.range' 1 T).filter rep2000).Pairwise (· < ·) :=
        (List.pairwise_lt_range' ..).filter _
      refine List.Pairwise.imp_of_mem ?_ hP
      intro a b _ _ hab
      simp
      omega
    · intro a ha b hb
      simp only [List.mem_singleton] at hb
      subst hb
      obtain ⟨k, hkL, rfl⟩ := List.mem_map.mp ha
      have hk := List.mem_range'_1.mp (List.mem_filter.mp hkL).1
      simp
      omega

/-- Generic phase-2 shape: the last report is `(total, total)`. -/
theorem phase2_shape_last (T : Nat) :
    ((0, T) :: (((List.range' 1 T).filter rep2000).map (fun k => (k, T)) ++
        [(T, T)])).getLast? = some (T, T) := by
  rw [show (0, T) :: (((List.range' 1 T).filter rep2000).map (fun k => (k, T)) ++ [(T, T)]) =
    ((0, T) :: ((List.range' 1 T).filter rep2000).map (fun k => (k, T))) ++ [(T, T)] from rfl]
  exact List.getLast?_concat _

/-- Generic phase-2 shape: the number of reports with done = total is 2 when
2000 divides the total and 1 otherwise. -/
theorem phase2_shape_count (T : Nat) (hT : 1 ≤ T) :
    (((0, T) :: (((List.range' 1 T).filter rep2000).map (fun k => (k, T)) ++
        [(T, T)])).map Prod.fst).count T = if 2000 ∣ T then 2 else 1 := by
  have hmapmap : ((((List.range' 1 T).filter rep2000).map (fun k => (k, T))).map Prod.fst) =
      (List.range' 1 T).filter rep2000 := by
    rw [List.map_map, show (Prod.fst ∘ fun k : Nat => (k, T)) = id from rfl, List.map_id]
  rw [List.map_cons, List.map_append, hmapmap]
  have hnd : ((List.range' 1 T).filter rep2000).Nodup := (List.nodup_range' ..).filter _
  have hcnt : ((List.range' 1 T).filter rep2000).count T = if 2000 ∣ T then 1 else 0 := by
    by_cases hdvd : 2000 ∣ T
    · rw [if_pos hdvd]
      refine List.count_eq_one_of_mem hnd ?_
      rw [List.mem_filter]
      refine ⟨List.mem_range'_1.mpr ⟨by omega, by omega⟩, ?_⟩
      have hmod : T % 2000 = 0 := Nat.mod_eq_zero_of_dvd hdvd
      simp [rep2000, hmod]
    · rw [if_neg hdvd]
      refine List.count_eq_zero_of_not_mem ?_
      rw [List.mem_filter]
      rintro ⟨_, hrep⟩
      simp [rep2000] at hrep
      exact hdvd (Nat.dvd_of_mod_eq_zero hrep)
  rw [List.count_cons, List.count_append, hcnt]
  have h0 : ¬ ((0 : Nat) = T) := by omega
  simp [h0]
  by_cases hdvd : 2000 ∣ T <;> simp [hdvd]

/-- Phase-1 reports are strictly increasing in done: the loop reports carry
strictly increasing indices strictly between 0 and the total. -/
theorem phase1Reports_pairwise (lines : List (List Char))
    (h : startIndex lines < lines.length) :
    (phase1Reports lines).Pairwise (fun a b : Nat × Nat => a.1 < b.1) := by
  simp only [phase1Reports]
  refine List.Pairwise.cons ?_ ?_
  · intro b hb
    rcases List.mem_append.mp hb with hb | hb
    · obtain ⟨i, hiL, rfl⟩ := List.mem_map.mp hb
      have hi := List.mem_range'_1.mp (List.mem_filter.mp hiL).1
      simp
      omega
    · simp only [List.mem_singleton] at hb
      subst hb
      simp
      omega
  · refine List.pairwise_append.mpr ⟨?_, by simp, ?_⟩
    · rw [List.pairwise_map]
      have hP : ((List.range' (startIndex lines + 1)
          (lines.length - (startIndex lines + 1))).filter
            (fun i => i % 1000 == 0)).Pairwise (· < ·) :=
        (List.pairwise_lt_range' ..).filter _
      refine List.Pairwise.imp_of_mem ?_ hP
      intro a b ha _ hab
      have ha2 := List.mem_range'_1.mp (List.mem_filter.mp ha).1
      simp
      omega
    · intro a ha b hb
      simp only [List.mem_singleton] at hb
      subst hb
      obtain ⟨i, hiL, rfl⟩ := List.mem_map.mp ha
      have hi := List.mem_range'_1.mp (List.mem_filter.mp hiL).1
      simp
      omega

/-- Phase 1 emits done = total exactly once: only its final report. -/
theorem phase1Reports_count (lines : List (List Char))
    (h : startIndex lines < lines.length) :
    ((phase1Reports lines).map Prod.fst).count (lines.length - startIndex lines) = 1 := by
  simp only [phase1Reports]
  rw [List.map_append, List.map_cons, List.map_map]
  rw [show (Prod.fst ∘ fun i : Nat => (i - startIndex lines, lines.length - startIndex lines))
    = (fun i : Nat => i - startIndex lines) from rfl]
  have hmid : (((List.range' (startIndex lines + 1)
      (lines.length - (startIndex lines + 1))).filter (fun i => i % 1000 == 0)).map
        (fun i : Nat => i - startIndex lines)).count (lines.length - startIndex lines) = 0 := by
    refine List.count_eq_zero_of_not_mem ?_
    intro hmem
    obtain ⟨i, hiL, hieq⟩ := List.mem_map.mp hmem
    have hi := List.mem_range'_1.mp (List.mem_filter.mp hiL).1
    omega
  rw [List.count_append, List.count_cons, hmid]
  have h0 : ¬ ((0 : Nat) = lines.length - startIndex lines) := by omega
  simp [h0]

/-- The last phase-1 report is `(total, total)`. -/
theorem phase1Reports_last (lines : List (List Char)) :
    (phase1Reports lines).getLast? =
      some (lines.length - startIndex lines, lines.length - startIndex lines) := by
  simp only [phase1Reports]
  exact List.getLast?_concat _

/-- C7 amended: within each phase the sequence of progress reports behaves as
follows.  Phase 1 (Parsing) is strictly increasing in done, ends at
`(total, total)`, and emits done = total exactly once.  Phase 2 (Building) is
non-decreasing in done and ends at `(total_items, total_items)`, but the
done = total_items report is emitted twice — once by the throttled in-recursion
report and once by the final report — exactly when total_items is a multiple
of the throttle interval 2000; otherwise exactly once. -/
theorem claim_C7_amended (lines : List (List Char))
    (h : startIndex lines < lines.length) :
    (phase1Reports lines).Pairwise (fun a b : Nat × Nat => a.1 < b.1) ∧
      ((phase1Reports lines).map Prod.fst).count (lines.length - startIndex lines) = 1 ∧
      (phase1Reports lines).getLast? =
        some (lines.length - startIndex lines, lines.length - startIndex lines) ∧
      (phase2Reports lines).Pairwise (fun a b : Nat × Nat => a.1 ≤ b.1) ∧
      (phase2Reports lines).getLast? =
        some ((pipelineItems lines).length, (pipelineItems lines).length) ∧
      ((phase2Reports lines).map Prod.fst).count (pipelineItems lines).length =
        (if 2000 ∣ (pipelineItems lines).length then 2 else 1) := by
  refine ⟨phase1Reports_pairwise lines h, phase1Reports_count lines h,
    phase1Reports_last lines, ?_, ?_, ?_⟩
  · rw [phase2Reports_eq]
    exact phase2_shape_pairwise _
  · rw [phase2Reports_eq]
    exact phase2_shape_last _
  · rw [phase2Reports_eq]
    exact phase2_shape_count _ (by simp [pipelineItems])

/-- The two-line input used as the C7 witness. -/
def c7Lines : List (List Char) := ["C:.".toList, "├── a".toList]

/-- Witness for C7 amended at a concrete two-line input. -/
theorem claim_C7_witness :
    startIndex c7Lines < c7Lines.length ∧
      ((phase1Reports c7Lines).Pairwise (fun a b : Nat × Nat => a.1 < b.1) ∧
        ((phase1Reports c7Lines).map Prod.fst).count (c7Lines.length - startIndex c7Lines) = 1 ∧
        (phase1Reports c7Lines).getLast? =
          some (c7Lines.length - startIndex c7Lines, c7Lines.length - startIndex c7Lines) ∧
        (phase2Reports c7Lines).Pairwise (fun a b : Nat × Nat => a.1 ≤ b.1) ∧
        (phase2Reports c7Lines).getLast? =
          some ((pipelineItems c7Lines).length, (pipelineItems c7Lines).length) ∧
        ((phase2Reports c7Lines).map Prod.fst).count (pipelineItems c7Lines).length =
          (if 2000 ∣ (pipelineItems c7Lines).length then 2 else 1)) :=
  ⟨by decide, claim_C7_amended c7Lines (by decide)⟩

/-- filterMap of a constant-successful function over a replicate. -/
theorem filterMap_replicate_some {α β : Type} (f : α → Option β) (x : α) (y : β)
    (hf : f x = some y) : ∀ n, List.filterMap f (List.replicate n x) = List.replicate n y := by
  intro n
  induction n with
  | zero => rfl
  | succ n ih => rw [List.replicate_succ, List.filterMap_cons, hf, ih, List.replicate_succ]

/-- When the first line is not a banner, the header-skipping loop stops at 0. -/
theorem startIndex_cons_of_not_banner (l : List Char) (ls : List (List Char))
    (h : isBannerLine l = false) : startIndex (l :: ls) = 0 := by
  rw [startIndex]
  simp [List.findIdx?_cons, h]

/-- The items parsed from 2000 identical one-character lines. -/
theorem c7cex_items :
    pipelineItems (List.replicate 2000 (['a'] : List Char)) =
      (0, (['a'] : List Char)) :: List.replicate 1999 ((0 : Nat), (['a'] : List Char)) := by
  rw [show (List.replicate 2000 (['a'] : List Char)) = ['a'] :: List.replicate 1999 ['a']
    from rfl]
  have h0 : startIndex (['a'] :: List.replicate 1999 ['a']) = 0 :=
    startIndex_cons_of_not_banner _ _ (by decide)
  simp only [pipelineItems, h0]
  rw [show ((['a'] :: List.replicate 1999 ['a']).getD 0 []) = ['a'] from rfl]
  rw [show pyRstrip ['a'] = ['a'] from rfl]
  rw [show ((['a'] :: List.replicate 1999 (['a'] : List Char)).drop (0 + 1)) =
    List.replicate 1999 ['a'] from rfl]
  rw [filterMap_replicate_some parseItemOfLine ['a'] ((0 : Nat), (['a'] : List Char))
    (by decide) 1999]

/-- C7 counterexample: for an input of 2000 lines, total_items is 2000 and the
phase-2 report done = total_items is emitted twice (once by the throttled
report at counter 2000, once by the final report), so it is not emitted
exactly once and the sequence is not strictly increasing. -/
theorem claim_C7_counterexample :
    (pipelineItems (List.replicate 2000 (['a'] : List Char))).length = 2000 ∧
      ((phase2Reports (List.replicate 2000 (['a'] : List Char))).map Prod.fst).count 2000 = 2 ∧
      (2 : Nat) ≠ 1 := by
  have hlen : (pipelineItems (List.replicate 2000 (['a'] : List Char))).length = 2000 := by
    rw [c7cex_items, List.length_cons, List.length_replicate]
  refine ⟨hlen, ?_, by decide⟩
  rw [phase2Reports_eq, hlen]
  rw [phase2_shape_count 2000 (by norm_num)]
  norm_num
